import Mathlib

/-!
# OpenEarable ExG firmware: sample batching and dual-sink delivery

A shallow embedding of `Code/OpenEarableExG PlatformIO/src/main.cpp`.

* A `float` sample is carried as its 32-bit pattern, a natural number.  The
  firmware never does arithmetic on a sample: it only copies it and hands its
  raw bytes to a sink.
* The target (nRF52840, ARM Cortex-M4) is little-endian, so the raw bytes of a
  32-bit object are its four base-256 digits, least significant first.
* The two sinks (`Serial`, `adcCharacteristic`) are recorded as traces.
* `unsigned long` is 32 bits wide on the target; clock arithmetic is taken
  modulo `2 ^ 32`.
-/

namespace OpenEarableExG

/-! ## Raw bytes -/

/-- The four raw bytes of a 32-bit object, as `(byte*)&x` reads them on the
little-endian target. -/
def rawBytes (x : Nat) : List Nat :=
  [x % 256, x / 256 % 256, x / 65536 % 256, x / 16777216 % 256]

/-- The raw bytes of `float data[5]`: `(byte*)&data` read for `sizeof(data)`
bytes, i.e. the five slots in index order. -/
def dataBytes (data : Fin 5 → Nat) : List Nat :=
  rawBytes (data 0) ++ rawBytes (data 1) ++ rawBytes (data 2) ++ rawBytes (data 3) ++
    rawBytes (data 4)

/-! ## State -/

/-- The globals `data` and `i` together with the traces of the two sinks:
`ble` lists the byte blocks passed to `adcCharacteristic.writeValue`, oldest
first, and `serial` lists the bytes written to `Serial`, oldest first. -/
structure World where
  data : Fin 5 → Nat
  i : Int
  ble : List (List Nat)
  serial : List Nat

/-- The globals as initialised: `float data[5] = {0.0}; int i = 0;`, with
nothing yet written by the sampling path. -/
def World.init : World :=
  { data := fun _ => 0, i := 0, ble := [], serial := [] }

/-- The assignment `data[i] = reading` for an index inside the array. -/
def writeSlot (data : Fin 5 → Nat) (i : Int) (reading : Nat) : Fin 5 → Nat :=
  fun k => if (k.val : Int) = i then reading else data k

/-- The function `updateBLE`.  The store `data[i] = reading` is defined only
when `i` addresses one of the five slots; otherwise the result is `none`. -/
def updateBLE (w : World) (reading : Nat) : Option World :=
  if 0 ≤ w.i ∧ w.i < 5 then
    let data := writeSlot w.data w.i reading
    if w.i = 4 then
      some { w with data := fun _ => 0, i := 0, ble := w.ble ++ [dataBytes data] }
    else
      some { w with data := data, i := w.i + 1 }
  else
    none

/-- The function `readExternalADC`, with the value obtained from
`adc.readVolts(0)` (after the conversion to `float`) given as `reading`. -/
def readExternalADC (w : World) (reading : Nat) : Option World :=
  let w1 := { w with serial := w.serial ++ rawBytes reading }
  let w2 := { w1 with serial := w1.serial ++ [10] }
  updateBLE w2 reading

/-- Successive calls `updateBLE(s)` for the samples of a list, in order. -/
def feedBLE : World → List Nat → Option World
  | w, [] => some w
  | w, s :: rest => (updateBLE w s).bind fun w1 => feedBLE w1 rest

/-- Successive calls of `readExternalADC`, the ADC returning the samples of a
list, in order. -/
def feedADC : World → List Nat → Option World
  | w, [] => some w
  | w, s :: rest => (readExternalADC w s).bind fun w1 => feedADC w1 rest

/-- The variant of `updateBLE` whose flush branch omits the `memset` and only
resets `i`. -/
def updateBLENoClear (w : World) (reading : Nat) : Option World :=
  if 0 ≤ w.i ∧ w.i < 5 then
    let data := writeSlot w.data w.i reading
    if w.i = 4 then
      some { w with data := data, i := 0, ble := w.ble ++ [dataBytes data] }
    else
      some { w with data := data, i := w.i + 1 }
  else
    none

/-- Successive calls of the variant without `memset`. -/
def feedBLENoClear : World → List Nat → Option World
  | w, [] => some w
  | w, s :: rest => (updateBLENoClear w s).bind fun w1 => feedBLENoClear w1 rest

/-! ## `measureSampleRate` -/

/-- The value of `endTime`: `startTime + 5000` in `unsigned long`. -/
def endTime (startTime : Nat) : Nat := (startTime + 5000) % 2 ^ 32

/-- The loop test `millis() < endTime` of `measureSampleRate`, for the clock
reading `t`. -/
def loopTest (startTime t : Nat) : Bool := decide (t < endTime startTime)

/-- The loop of `measureSampleRate`: `clock` lists the values `millis()`
returns at the successive loop tests and `adc` the samples the ADC returns.
The result is the final world and `sampleCount`; it is `none` when a list is
exhausted before the loop ends or a store is out of bounds. -/
def sampleLoop (startTime : Nat) : World → Nat → List Nat → List Nat → Option (World × Nat)
  | _, _, [], _ => none
  | w, count, t :: clock, adc =>
    if loopTest startTime t then
      match adc with
      | [] => none
      | s :: adc1 =>
        (readExternalADC w s).bind fun w1 =>
          sampleLoop startTime w1 ((count + 1) % 2 ^ 32) clock adc1
    else
      some (w, count)

/-- The sampling part of `measureSampleRate`: the first clock reading is
`startTime`, the remaining ones are those of the loop tests. -/
def measureSampleRate (w : World) (clock adc : List Nat) : Option (World × Nat) :=
  match clock with
  | [] => none
  | startTime :: clock1 => sampleLoop startTime w 0 clock1 adc

/-- The milliseconds elapsed between the clock readings `startTime` and `t`
of the 32-bit counter: `(t - startTime) mod 2 ^ 32`. -/
def elapsed (startTime t : Nat) : Nat := (t + 2 ^ 32 - startTime % 2 ^ 32) % 2 ^ 32

/-! ## Readers of the sinks -/

/-- A reader of the notification payload: consecutive 4-byte little-endian
words. -/
def decodeWords : List Nat → List Nat
  | b0 :: b1 :: b2 :: b3 :: rest =>
    (b0 + 256 * b1 + 65536 * b2 + 16777216 * b3) :: decodeWords rest
  | _ => []

/-- A reader of the serial stream: the chunks ended by a `0x0A` byte, and the
bytes left after the last one. -/
def splitRecords : List Nat → List Nat → List (List Nat) × List Nat
  | acc, [] => ([], acc)
  | acc, b :: rest =>
    if b = 10 then
      let r := splitRecords [] rest
      (acc :: r.1, r.2)
    else
      splitRecords (acc ++ [b]) rest

/-- The samples `1.0 .. 6.0` as IEEE-754 single-precision bit patterns. -/
def f1 : Nat := 0x3F800000
def f2 : Nat := 0x40000000
def f3 : Nat := 0x40400000
def f4 : Nat := 0x40800000
def f5 : Nat := 0x40A00000
def f6 : Nat := 0x40C00000

/-! ## Grouping a sample sequence into batches -/

/-- The complete groups of five consecutive samples of a sequence. -/
def batches : List Nat → List (List Nat)
  | a :: b :: c :: d :: e :: rest => [a, b, c, d, e] :: batches rest
  | _ => []

/-- The samples left after the last complete group of five. -/
def leftover : List Nat → List Nat
  | _ :: _ :: _ :: _ :: _ :: rest => leftover rest
  | xs => xs

/-- The buffer holding the samples of a list in its first slots and zero
elsewhere. -/
def bufferOf (xs : List Nat) : Fin 5 → Nat :=
  fun k => xs.getD k.val 0

/-- The byte block of a group of samples. -/
def batchBytes (xs : List Nat) : List Nat := xs.flatMap rawBytes

/-- The serial record of a sample: its four raw bytes, then `0x0A`. -/
def record (s : Nat) : List Nat := rawBytes s ++ [10]

/-- The relation kept between a run of `updateBLE` and a run of the variant
without `memset`: same index, same calls so far, and the same contents in the
slots below the index. -/
def Sim (w v : World) : Prop :=
  w.i = v.i ∧ w.ble = v.ble ∧ 0 ≤ w.i ∧ w.i ≤ 4 ∧
    ∀ k : Fin 5, (k.val : Int) < w.i → w.data k = v.data k

/-! ## Lemmas -/

theorem rawBytes_length (x : Nat) : (rawBytes x).length = 4 := rfl

theorem updateBLE_flush (w : World) (s : Nat) (h : w.i = 4) :
    updateBLE w s =
      some { w with data := fun _ => 0, i := 0, ble := w.ble ++ [dataBytes (writeSlot w.data 4 s)] } := by
  simp [updateBLE, h]

theorem updateBLE_fill (w : World) (s : Nat) (h0 : 0 ≤ w.i) (h4 : w.i < 4) :
    updateBLE w s = some { w with data := writeSlot w.data w.i s, i := w.i + 1 } := by
  have h5 : w.i < 5 := by omega
  have hne : w.i ≠ 4 := by omega
  simp [updateBLE, h0, h5, hne]

theorem updateBLENoClear_flush (w : World) (s : Nat) (h : w.i = 4) :
    updateBLENoClear w s =
      some { w with data := writeSlot w.data 4 s, i := 0,
                    ble := w.ble ++ [dataBytes (writeSlot w.data 4 s)] } := by
  simp [updateBLENoClear, h]

theorem updateBLENoClear_fill (w : World) (s : Nat) (h0 : 0 ≤ w.i) (h4 : w.i < 4) :
    updateBLENoClear w s = some { w with data := writeSlot w.data w.i s, i := w.i + 1 } := by
  have h5 : w.i < 5 := by omega
  have hne : w.i ≠ 4 := by omega
  simp [updateBLENoClear, h0, h5, hne]

theorem feedBLE_block (ble : List (List Nat)) (ser : List Nat) (a b c d e : Nat)
    (rest : List Nat) :
    feedBLE { data := fun _ => 0, i := 0, ble := ble, serial := ser }
        (a :: b :: c :: d :: e :: rest) =
      feedBLE
        { data := fun _ => 0, i := 0, ble := ble ++ [batchBytes [a, b, c, d, e]], serial := ser }
        rest := by
  have h3 : ((3 : Fin 5) : Nat) = 3 := rfl
  have h4 : ((4 : Fin 5) : Nat) = 4 := rfl
  simp [feedBLE, updateBLE, writeSlot, dataBytes, batchBytes, h3, h4]

theorem feedBLE_short (ble : List (List Nat)) (ser : List Nat) (xs : List Nat)
    (h : xs.length < 5) :
    feedBLE { data := fun _ => 0, i := 0, ble := ble, serial := ser } xs =
      some { data := bufferOf xs, i := (xs.length : Int), ble := ble, serial := ser } := by
  match xs, h with
  | [], _ => simp [feedBLE]; rfl
  | [a], _ =>
    simp [feedBLE, updateBLE]
    funext k; fin_cases k <;> rfl
  | [a, b], _ =>
    simp [feedBLE, updateBLE]
    funext k; fin_cases k <;> rfl
  | [a, b, c], _ =>
    simp [feedBLE, updateBLE]
    funext k; fin_cases k <;> rfl
  | [a, b, c, d], _ =>
    simp [feedBLE, updateBLE]
    funext k; fin_cases k <;> rfl
  | _ :: _ :: _ :: _ :: _ :: _, h => simp at h; omega

/-- Induction over a list in steps of five elements. -/
theorem five_induction {P : List Nat → Prop} (short : ∀ xs, xs.length < 5 → P xs)
    (step : ∀ a b c d e rest, P rest → P (a :: b :: c :: d :: e :: rest)) : ∀ xs, P xs
  | [] => short _ (by simp)
  | [_] => short _ (by simp)
  | [_, _] => short _ (by simp)
  | [_, _, _] => short _ (by simp)
  | [_, _, _, _] => short _ (by simp)
  | a :: b :: c :: d :: e :: rest => step a b c d e rest (five_induction short step rest)

theorem batches_short (xs : List Nat) (h : xs.length < 5) : batches xs = [] := by
  match xs, h with
  | [], _ => rfl
  | [_], _ => rfl
  | [_, _], _ => rfl
  | [_, _, _], _ => rfl
  | [_, _, _, _], _ => rfl
  | _ :: _ :: _ :: _ :: _ :: _, h => simp at h; omega

theorem leftover_short (xs : List Nat) (h : xs.length < 5) : leftover xs = xs := by
  match xs, h with
  | [], _ => rfl
  | [_], _ => rfl
  | [_, _], _ => rfl
  | [_, _, _], _ => rfl
  | [_, _, _, _], _ => rfl
  | _ :: _ :: _ :: _ :: _ :: _, h => simp at h; omega

theorem batches_step (a b c d e : Nat) (rest : List Nat) :
    batches (a :: b :: c :: d :: e :: rest) = [a, b, c, d, e] :: batches rest := rfl

theorem leftover_step (a b c d e : Nat) (rest : List Nat) :
    leftover (a :: b :: c :: d :: e :: rest) = leftover rest := rfl

theorem batches_length (xs : List Nat) : (batches xs).length = xs.length / 5 := by
  induction xs using five_induction with
  | short xs h => rw [batches_short xs h]; simp; omega
  | step a b c d e rest ih => rw [batches_step]; simp [ih]; omega

theorem leftover_length (xs : List Nat) : (leftover xs).length = xs.length % 5 := by
  induction xs using five_induction with
  | short xs h => rw [leftover_short xs h]; omega
  | step a b c d e rest ih => rw [leftover_step, ih]; simp; omega

theorem leftover_eq_drop (xs : List Nat) : leftover xs = xs.drop (5 * (xs.length / 5)) := by
  induction xs using five_induction with
  | short xs h =>
    rw [leftover_short xs h]
    have : xs.length / 5 = 0 := by omega
    simp [this]
  | step a b c d e rest ih =>
    rw [leftover_step, ih]
    have : (a :: b :: c :: d :: e :: rest).length / 5 = rest.length / 5 + 1 := by
      simp; omega
    rw [this, Nat.mul_add]
    rfl

theorem batches_getElem? (xs : List Nat) :
    ∀ k, k < xs.length / 5 → (batches xs)[k]? = some ((xs.drop (5 * k)).take 5) := by
  induction xs using five_induction with
  | short xs h => intro k hk; omega
  | step a b c d e rest ih =>
    intro k hk
    rw [batches_step]
    cases k with
    | zero => simp
    | succ k =>
      have hk1 : k < rest.length / 5 := by simp at hk; omega
      rw [List.getElem?_cons_succ, ih k hk1, Nat.mul_add]
      rfl

theorem batches_take_length (xs : List Nat) (k : Nat) (hk : k < xs.length / 5) :
    ((xs.drop (5 * k)).take 5).length = 5 := by
  simp; omega

/-- Feeding a sample sequence to `updateBLE` from a state with an empty
buffer: one flush per complete group of five, the leftover samples stay in
the buffer. -/
theorem feedBLE_empty (xs : List Nat) : ∀ (ble : List (List Nat)) (ser : List Nat),
    feedBLE { data := fun _ => 0, i := 0, ble := ble, serial := ser } xs =
      some { data := bufferOf (leftover xs), i := ((leftover xs).length : Int),
             ble := ble ++ (batches xs).map batchBytes, serial := ser } := by
  induction xs using five_induction with
  | short xs h =>
    intro ble ser
    rw [feedBLE_short ble ser xs h, leftover_short xs h, batches_short xs h]
    simp
  | step a b c d e rest ih =>
    intro ble ser
    rw [feedBLE_block, ih, leftover_step, batches_step]
    simp

theorem batches_take (xs : List Nat) :
    ∀ n, batches (xs.take n) = (batches xs).take (n / 5) := by
  induction xs using five_induction with
  | short xs h =>
    intro n
    have h1 : (xs.take n).length < 5 := by simp; omega
    rw [batches_short xs h, batches_short _ h1]; simp
  | step a b c d e rest ih =>
    intro n
    by_cases hn : n < 5
    · have h1 : ((a :: b :: c :: d :: e :: rest).take n).length < 5 := by simp; omega
      have h2 : n / 5 = 0 := by omega
      rw [batches_short _ h1, h2]; simp
    · obtain ⟨m, rfl⟩ : ∃ m, n = m + 5 := ⟨n - 5, by omega⟩
      have h2 : (m + 5) / 5 = m / 5 + 1 := by omega
      rw [h2, batches_step]
      simp only [List.take_succ_cons]
      rw [batches_step, ih m]

theorem take_five_drop (xs : List Nat) (m : Nat) (h : m + 5 ≤ xs.length) :
    ∃ a b c d e, (xs.drop m).take 5 = [a, b, c, d, e] ∧ xs[m]? = some a ∧
      xs[m + 1]? = some b ∧ xs[m + 2]? = some c ∧ xs[m + 3]? = some d ∧
      xs[m + 4]? = some e := by
  have hl : ((xs.drop m).take 5).length = 5 := by simp; omega
  have hget : ∀ j, j < 5 → xs[m + j]? = ((xs.drop m).take 5)[j]? := by
    intro j hj
    rw [List.getElem?_take_of_lt hj, List.getElem?_drop]
  match hq : (xs.drop m).take 5, hl with
  | [a, b, c, d, e], _ =>
    refine ⟨a, b, c, d, e, rfl, ?_, ?_, ?_, ?_, ?_⟩
    · have := hget 0 (by omega); rw [hq] at this; simpa using this
    · have := hget 1 (by omega); rw [hq] at this; simpa using this
    · have := hget 2 (by omega); rw [hq] at this; simpa using this
    · have := hget 3 (by omega); rw [hq] at this; simpa using this
    · have := hget 4 (by omega); rw [hq] at this; simpa using this

theorem feedBLE_init (xs : List Nat) :
    feedBLE World.init xs =
      some { data := bufferOf (leftover xs), i := ((leftover xs).length : Int),
             ble := (batches xs).map batchBytes, serial := [] } := by
  have := feedBLE_empty xs [] []
  simpa [World.init] using this

theorem updateBLE_setSerial (w : World) (t : List Nat) (s : Nat) :
    updateBLE { w with serial := t } s =
      (updateBLE w s).map fun w1 => { w1 with serial := t } := by
  unfold updateBLE
  by_cases h : 0 ≤ w.i ∧ w.i < 5
  · by_cases h4 : w.i = 4 <;> simp [h, h4]
  · simp [h]

theorem feedBLE_setSerial (xs : List Nat) : ∀ (w : World) (t : List Nat),
    feedBLE { w with serial := t } xs =
      (feedBLE w xs).map fun w1 => { w1 with serial := t } := by
  induction xs with
  | nil => intro w t; simp [feedBLE]
  | cons s rest ih =>
    intro w t
    simp only [feedBLE, updateBLE_setSerial]
    cases h : updateBLE w s with
    | none => simp
    | some w1 =>
      simp only [Option.map_some', Option.some_bind]
      exact ih w1 t

theorem readExternalADC_eq (w : World) (s : Nat) :
    readExternalADC w s =
      (updateBLE w s).map fun w1 => { w1 with serial := w.serial ++ record s } := by
  simp [readExternalADC, updateBLE_setSerial, record]

theorem feedADC_eq (xs : List Nat) : ∀ w : World,
    feedADC w xs =
      (feedBLE w xs).map fun w1 => { w1 with serial := w.serial ++ xs.flatMap record } := by
  induction xs with
  | nil => intro w; simp [feedADC, feedBLE]
  | cons s rest ih =>
    intro w
    simp only [feedADC, feedBLE, readExternalADC_eq]
    cases h : updateBLE w s with
    | none => simp
    | some w1 => simp [ih, feedBLE_setSerial, Option.map_map, Function.comp_def]

theorem record_length (s : Nat) : (record s).length = 5 := rfl

theorem flatMap_record_length (xs : List Nat) : (xs.flatMap record).length = 5 * xs.length := by
  induction xs with
  | nil => rfl
  | cons s rest ih => simp [List.flatMap_cons, record_length, ih]; omega

theorem drop_flatMap_record (xs : List Nat) :
    ∀ j, (xs.flatMap record).drop (5 * j) = (xs.drop j).flatMap record := by
  induction xs with
  | nil => intro j; simp
  | cons s rest ih =>
    intro j
    cases j with
    | zero => simp
    | succ j =>
      have h : 5 * (j + 1) = (record s).length + 5 * j := by rw [record_length]; omega
      rw [List.flatMap_cons, h, List.drop_append, List.drop_succ_cons, ih j]

theorem record_at (xs : List Nat) (j s : Nat) (h : xs[j]? = some s) :
    ((xs.flatMap record).drop (5 * j)).take 5 = record s := by
  rw [drop_flatMap_record]
  have hj : j < xs.length := by
    rcases Nat.lt_or_ge j xs.length with h1 | h1
    · exact h1
    · rw [List.getElem?_eq_none h1] at h; cases h
  have hs : xs[j] = s := by
    rw [List.getElem?_eq_getElem hj] at h; exact Option.some.inj h
  rw [List.drop_eq_getElem_cons hj, hs, List.flatMap_cons]
  have h5 : 5 = (record s).length := rfl
  rw [h5, List.take_left]

theorem decodeWords_rawBytes (a : Nat) (h : a < 2 ^ 32) (l : List Nat) :
    decodeWords (rawBytes a ++ l) = a :: decodeWords l := by
  show (a % 256 + 256 * (a / 256 % 256) + 65536 * (a / 65536 % 256) +
      16777216 * (a / 16777216 % 256)) :: decodeWords l = a :: decodeWords l
  congr 1
  omega

theorem bufferOf_lt (xs : List Nat) (j : Fin 5) (h : j.val < xs.length) :
    xs[j.val]? = some (bufferOf xs j) := by
  simp [bufferOf, List.getD_eq_getElem?_getD, List.getElem?_eq_getElem h]

theorem bufferOf_ge (xs : List Nat) (j : Fin 5) (h : xs.length ≤ j.val) :
    bufferOf xs j = 0 := by
  simp [bufferOf, List.getD_eq_getElem?_getD, List.getElem?_eq_none h]

theorem sim_step (w v : World) (s : Nat) (h : Sim w v) :
    ∃ w1 v1, updateBLE w s = some w1 ∧ updateBLENoClear v s = some v1 ∧ Sim w1 v1 := by
  obtain ⟨hi, hble, h0, h4, hd⟩ := h
  have hv0 : 0 ≤ v.i := by omega
  have hv5 : v.i < 5 := by omega
  by_cases hf : w.i = 4
  · have hvf : v.i = 4 := by omega
    have hdata : writeSlot w.data 4 s = writeSlot v.data 4 s := by
      funext k
      by_cases hk : (k.val : Int) = 4
      · simp [writeSlot, hk]
      · have hk5 : k.val < 5 := k.isLt
        have hlt : (k.val : Int) < w.i := by omega
        simp [writeSlot, hk, hd k hlt]
    refine ⟨_, _, updateBLE_flush w s hf, updateBLENoClear_flush v s hvf, ?_⟩
    · refine ⟨rfl, ?_, Int.le_refl 0, by show (0 : Int) ≤ 4; decide, ?_⟩
      · simp [hble, hdata]
      · intro k hk
        have : (0 : Int) ≤ (k.val : Int) := Int.ofNat_nonneg _
        exact absurd hk (by simp only [not_lt]; exact this)
  · have hvf : v.i ≠ 4 := by omega
    refine ⟨_, _, updateBLE_fill w s h0 (by omega),
      updateBLENoClear_fill v s hv0 (by omega), ?_⟩
    · refine ⟨by simp [hi], hble, by simp only; omega, by simp only; omega, ?_⟩
      intro k hk
      simp only at hk
      by_cases hkw : (k.val : Int) = w.i
      · simp [writeSlot, hkw, ← hi]
      · have hlt : (k.val : Int) < w.i := by omega
        have hkv : (k.val : Int) ≠ v.i := by omega
        simp [writeSlot, hkw, hkv, hd k hlt]

theorem sim_feed (xs : List Nat) : ∀ w v, Sim w v →
    ∃ w1 v1, feedBLE w xs = some w1 ∧ feedBLENoClear v xs = some v1 ∧ Sim w1 v1 := by
  induction xs with
  | nil => intro w v h; exact ⟨w, v, rfl, rfl, h⟩
  | cons s rest ih =>
    intro w v h
    obtain ⟨w1, v1, hw, hv, h1⟩ := sim_step w v s h
    obtain ⟨w2, v2, hw2, hv2, h2⟩ := ih w1 v1 h1
    exact ⟨w2, v2, by simp [feedBLE, hw, hw2], by simp [feedBLENoClear, hv, hv2], h2⟩

/-! ## Claims -/

/-- C1: feeding any `N` samples to `updateBLE` from the initial state succeeds
and makes exactly `N / 5` calls of `adcCharacteristic.writeValue`; for every
`k` with `1 ≤ k ≤ N / 5` the `k`-th call carries the 20 bytes that are the
4-byte little-endian encodings of samples number `5k-4 .. 5k` (list positions
`5k-5 .. 5k-1`), in order; and after the first `n` samples exactly the first
`n / 5` of these calls have been made, so the `k`-th call is made on sample
`5k` and carries the five samples most recently acquired. -/
theorem flush_trace_spec (samples : List Nat) :
    ∃ w, feedBLE World.init samples = some w ∧
      w.ble.length = samples.length / 5 ∧
      (∀ k, 1 ≤ k → k ≤ samples.length / 5 →
        ∃ a b c d e, samples[5 * k - 5]? = some a ∧ samples[5 * k - 4]? = some b ∧
          samples[5 * k - 3]? = some c ∧ samples[5 * k - 2]? = some d ∧
          samples[5 * k - 1]? = some e ∧
          w.ble[k - 1]? =
            some (rawBytes a ++ rawBytes b ++ rawBytes c ++ rawBytes d ++ rawBytes e) ∧
          (rawBytes a ++ rawBytes b ++ rawBytes c ++ rawBytes d ++ rawBytes e).length = 20) ∧
      (∀ n, n ≤ samples.length →
        ∃ wn, feedBLE World.init (samples.take n) = some wn ∧ wn.ble = w.ble.take (n / 5)) := by
  refine ⟨_, feedBLE_init samples, ?_, ?_, ?_⟩
  · simp [batches_length]
  · intro k hk1 hk2
    obtain ⟨j, rfl⟩ : ∃ j, k = j + 1 := ⟨k - 1, by omega⟩
    have hj : j < samples.length / 5 := by omega
    obtain ⟨a, b, c, d, e, hq, ha, hb, hc, hd, he⟩ :=
      take_five_drop samples (5 * j) (by omega)
    refine ⟨a, b, c, d, e, ?_, ?_, ?_, ?_, ?_, ?_, rfl⟩
    · rw [← ha]; congr 1
    · rw [← hb]; congr 1
    · rw [← hc]; congr 1
    · rw [← hd]; congr 1
    · rw [← he]; congr 1
    · simp only [Nat.add_sub_cancel, List.getElem?_map, batches_getElem? samples j hj, hq]
      simp [batchBytes]
  · intro n _
    refine ⟨_, feedBLE_init (samples.take n), ?_⟩
    simp [batches_take, List.map_take]

/-- The claim C1 at the six samples `1.0 .. 6.0`. -/
theorem flush_trace_spec_witness :
    ∃ w, feedBLE World.init [f1, f2, f3, f4, f5, f6] = some w ∧
      w.ble.length = [f1, f2, f3, f4, f5, f6].length / 5 ∧
      (∀ k, 1 ≤ k → k ≤ [f1, f2, f3, f4, f5, f6].length / 5 →
        ∃ a b c d e, [f1, f2, f3, f4, f5, f6][5 * k - 5]? = some a ∧
          [f1, f2, f3, f4, f5, f6][5 * k - 4]? = some b ∧
          [f1, f2, f3, f4, f5, f6][5 * k - 3]? = some c ∧
          [f1, f2, f3, f4, f5, f6][5 * k - 2]? = some d ∧
          [f1, f2, f3, f4, f5, f6][5 * k - 1]? = some e ∧
          w.ble[k - 1]? =
            some (rawBytes a ++ rawBytes b ++ rawBytes c ++ rawBytes d ++ rawBytes e) ∧
          (rawBytes a ++ rawBytes b ++ rawBytes c ++ rawBytes d ++ rawBytes e).length = 20) ∧
      (∀ n, n ≤ [f1, f2, f3, f4, f5, f6].length →
        ∃ wn, feedBLE World.init ([f1, f2, f3, f4, f5, f6].take n) = some wn ∧
          wn.ble = w.ble.take (n / 5)) :=
  flush_trace_spec [f1, f2, f3, f4, f5, f6]

/-- C2: `N` successive calls of `readExternalADC`, the ADC returning the
samples of any list of length `N`, succeed from the initial state and write
exactly `5 * N` bytes to the serial sink; for every `j` with `1 ≤ j ≤ N` the
five bytes number `5j-4 .. 5j` of the output (list positions `5j-5 .. 5j-1`)
are the four raw little-endian bytes of sample `j` followed by `0x0A`. -/
theorem serial_trace_spec (samples : List Nat) :
    ∃ w, feedADC World.init samples = some w ∧
      w.serial.length = 5 * samples.length ∧
      (∀ j, 1 ≤ j → j ≤ samples.length →
        ∃ s, samples[j - 1]? = some s ∧
          (w.serial.drop (5 * j - 5)).take 5 =
            [s % 256, s / 256 % 256, s / 65536 % 256, s / 16777216 % 256, 10]) := by
  have h := feedADC_eq samples World.init
  rw [feedBLE_init] at h
  refine ⟨_, h, ?_, ?_⟩
  · show (World.init.serial ++ samples.flatMap record).length = _
    simp only [World.init, List.nil_append]
    exact flatMap_record_length samples
  · intro j hj1 hj2
    obtain ⟨k, rfl⟩ : ∃ k, j = k + 1 := ⟨j - 1, by omega⟩
    have hk : k < samples.length := by omega
    refine ⟨samples[k], ?_, ?_⟩
    · simp [List.getElem?_eq_getElem hk]
    · have h5 : 5 * (k + 1) - 5 = 5 * k := by omega
      have := record_at samples k samples[k] (List.getElem?_eq_getElem hk)
      simp only [h5, World.init, List.nil_append]
      rw [this]
      rfl

/-- The claim C2 at the six samples `1.0 .. 6.0`. -/
theorem serial_trace_spec_witness :
    ∃ w, feedADC World.init [f1, f2, f3, f4, f5, f6] = some w ∧
      w.serial.length = 5 * [f1, f2, f3, f4, f5, f6].length ∧
      (∀ j, 1 ≤ j → j ≤ [f1, f2, f3, f4, f5, f6].length →
        ∃ s, [f1, f2, f3, f4, f5, f6][j - 1]? = some s ∧
          (w.serial.drop (5 * j - 5)).take 5 =
            [s % 256, s / 256 % 256, s / 65536 % 256, s / 16777216 % 256, 10]) :=
  serial_trace_spec [f1, f2, f3, f4, f5, f6]

/-- C3: from every state whose fill index is 4, whatever the buffer holds and
whatever the sample, `updateBLE` makes one call of `writeValue` (with the raw
bytes of the buffer after the store into slot 4) and leaves all five slots of
`data` equal to zero and `i` equal to 0. -/
theorem flush_resets_buffer (w : World) (s : Nat) (h : w.i = 4) :
    ∃ w1, updateBLE w s = some w1 ∧
      w1.ble = w.ble ++ [dataBytes (writeSlot w.data 4 s)] ∧
      (∀ j : Fin 5, w1.data j = 0) ∧ w1.i = 0 := by
  refine ⟨_, updateBLE_flush w s h, rfl, fun _ => rfl, rfl⟩

/-- The claim C3 at a full-looking buffer with fill index 4. -/
theorem flush_resets_buffer_witness :
    (4 : Int) = 4 ∧
    ∃ w1, updateBLE { data := fun _ => f6, i := 4, ble := [], serial := [] } f1 = some w1 ∧
      w1.ble = [] ++ [dataBytes (writeSlot (fun _ => f6) 4 f1)] ∧
      (∀ j : Fin 5, w1.data j = 0) ∧ w1.i = 0 :=
  ⟨rfl, flush_resets_buffer { data := fun _ => f6, i := 4, ble := [], serial := [] } f1 rfl⟩

/-- C7: for every sample and any two states with fill index in `0 .. 4`
(any buffer contents, any earlier output), `readExternalADC` succeeds in both
and appends the same five bytes, the raw bytes of the sample and `0x0A`, to
the serial sink; this covers the calls that flush (index 4) and those that do
not. -/
theorem serial_record_independent (s : Nat) (w v : World)
    (hw0 : 0 ≤ w.i) (hw4 : w.i ≤ 4) (hv0 : 0 ≤ v.i) (hv4 : v.i ≤ 4) :
    ∃ w1 v1, readExternalADC w s = some w1 ∧ readExternalADC v s = some v1 ∧
      w1.serial = w.serial ++ (rawBytes s ++ [10]) ∧
      v1.serial = v.serial ++ (rawBytes s ++ [10]) := by
  have key : ∀ u : World, 0 ≤ u.i → u.i ≤ 4 →
      ∃ u1, readExternalADC u s = some u1 ∧ u1.serial = u.serial ++ (rawBytes s ++ [10]) := by
    intro u h0 h4
    rw [readExternalADC_eq]
    by_cases h : u.i = 4
    · rw [updateBLE_flush u s h]; exact ⟨_, rfl, rfl⟩
    · rw [updateBLE_fill u s h0 (by omega)]; exact ⟨_, rfl, rfl⟩
  obtain ⟨w1, hw1, hws⟩ := key w hw0 hw4
  obtain ⟨v1, hv1, hvs⟩ := key v hv0 hv4
  exact ⟨w1, v1, hw1, hv1, hws, hvs⟩

/-- The claim C7 at a state about to flush and a state that is not. -/
theorem serial_record_independent_witness :
    ∃ w1 v1,
      readExternalADC { data := fun _ => f2, i := 4, ble := [], serial := [] } f1 = some w1 ∧
      readExternalADC { data := fun _ => 0, i := 1, ble := [[]], serial := [7] } f1 = some v1 ∧
      w1.serial = [] ++ (rawBytes f1 ++ [10]) ∧
      v1.serial = [7] ++ (rawBytes f1 ++ [10]) :=
  serial_record_independent f1
    { data := fun _ => f2, i := 4, ble := [], serial := [] }
    { data := fun _ => 0, i := 1, ble := [[]], serial := [7] }
    (by decide) (by decide) (by decide) (by decide)

/-- C4: for any five samples given as 32-bit patterns, feeding them to
`updateBLE` from the initial state makes exactly one call of `writeValue`, with
a 20-byte payload, and reading that payload as five consecutive 4-byte
little-endian words gives back the five patterns, unchanged and in order. -/
theorem flush_payload_roundtrip (a b c d e : Nat) (ha : a < 2 ^ 32) (hb : b < 2 ^ 32)
    (hc : c < 2 ^ 32) (hd : d < 2 ^ 32) (he : e < 2 ^ 32) :
    ∃ w p, feedBLE World.init [a, b, c, d, e] = some w ∧ w.ble = [p] ∧ p.length = 20 ∧
      decodeWords p = [a, b, c, d, e] := by
  refine ⟨_, _, feedBLE_init [a, b, c, d, e], rfl, rfl, ?_⟩
  show decodeWords (rawBytes a ++ (rawBytes b ++ (rawBytes c ++ (rawBytes d ++
    (rawBytes e ++ []))))) = _
  rw [decodeWords_rawBytes a ha, decodeWords_rawBytes b hb, decodeWords_rawBytes c hc,
    decodeWords_rawBytes d hd, decodeWords_rawBytes e he]
  rfl

/-- The claim C4 at a NaN with a payload, the two infinities and the two
signed zeros. -/
theorem flush_payload_roundtrip_witness :
    ∃ w p, feedBLE World.init [0x7FC00001, 0x7F800000, 0xFF800000, 0x80000000, 0] = some w ∧
      w.ble = [p] ∧ p.length = 20 ∧
      decodeWords p = [0x7FC00001, 0x7F800000, 0xFF800000, 0x80000000, 0] :=
  flush_payload_roundtrip 0x7FC00001 0x7F800000 0xFF800000 0x80000000 0
    (by decide) (by decide) (by decide) (by decide) (by decide)

/-- C5: feeding any `N` samples to `updateBLE` from the initial state ends in
a state with `i = N mod 5`, with slot `j` holding sample number
`5 * (N / 5) + j + 1` (list position `5 * (N / 5) + j`) for every `j < N mod 5`
and holding zero for every other `j`; and after the samples `1.0 .. 6.0`
there has been one flush, with payload `1.0 .. 5.0`, `i = 1` and
`data[0] = 6.0`. -/
theorem final_state_spec :
    (∀ samples : List Nat, ∃ w, feedBLE World.init samples = some w ∧
      w.i = ((samples.length % 5 : Nat) : Int) ∧
      (∀ j : Fin 5, j.val < samples.length % 5 →
        samples[5 * (samples.length / 5) + j.val]? = some (w.data j)) ∧
      (∀ j : Fin 5, samples.length % 5 ≤ j.val → w.data j = 0)) ∧
    (∃ w, feedBLE World.init [f1, f2, f3, f4, f5, f6] = some w ∧
      w.ble = [rawBytes f1 ++ rawBytes f2 ++ rawBytes f3 ++ rawBytes f4 ++ rawBytes f5] ∧
      w.i = 1 ∧ w.data 0 = f6) := by
  constructor
  · intro samples
    refine ⟨_, feedBLE_init samples, ?_, ?_, ?_⟩
    · simp [leftover_length]
    · intro j hj
      have h := bufferOf_lt (leftover samples) j (by rw [leftover_length]; exact hj)
      rw [← h, leftover_eq_drop, List.getElem?_drop]
    · intro j hj
      exact bufferOf_ge (leftover samples) j (by rw [leftover_length]; exact hj)
  · exact ⟨_, feedBLE_init [f1, f2, f3, f4, f5, f6], rfl, rfl, rfl⟩

/-- C6: the predicate `0 ≤ i ≤ 4` holds in the initial state; from every
state that satisfies it, whatever the buffer holds and whatever the sample,
`updateBLE` performs its store inside the array (it returns a state) and the
new state satisfies it again; hence after any sample sequence fed from the
initial state the index is in `0 .. 4`, the next store is inside the array,
and the number of samples in the batch, counting the one being stored, is at
most 5. -/
theorem fill_index_invariant :
    (0 ≤ World.init.i ∧ World.init.i ≤ 4) ∧
    (∀ (w : World) (s : Nat), 0 ≤ w.i → w.i ≤ 4 →
      ∃ w1, updateBLE w s = some w1 ∧ 0 ≤ w1.i ∧ w1.i ≤ 4) ∧
    (∀ (samples : List Nat) (s : Nat), ∃ w w1, feedBLE World.init samples = some w ∧
      0 ≤ w.i ∧ w.i ≤ 4 ∧ w.i + 1 ≤ 5 ∧ updateBLE w s = some w1) := by
  have step : ∀ (w : World) (s : Nat), 0 ≤ w.i → w.i ≤ 4 →
      ∃ w1, updateBLE w s = some w1 ∧ 0 ≤ w1.i ∧ w1.i ≤ 4 := by
    intro w s h0 h4
    by_cases h : w.i = 4
    · exact ⟨_, updateBLE_flush w s h, Int.le_refl 0, by show (0 : Int) ≤ 4; decide⟩
    · refine ⟨_, updateBLE_fill w s h0 (by omega), ?_, ?_⟩
      · show 0 ≤ w.i + 1; omega
      · show w.i + 1 ≤ 4; omega
  refine ⟨⟨Int.le_refl 0, by show (0 : Int) ≤ 4; decide⟩, step, ?_⟩
  intro samples s
  have hl : (leftover samples).length < 5 := by
    rw [leftover_length]; exact Nat.mod_lt _ (by decide)
  have h0 : (0 : Int) ≤ ((leftover samples).length : Int) := Int.ofNat_nonneg _
  have h4 : ((leftover samples).length : Int) ≤ 4 := by omega
  obtain ⟨w1, hw1, _⟩ := step _ s
    (show 0 ≤ (World.mk (bufferOf (leftover samples)) ((leftover samples).length : Int)
      ((batches samples).map batchBytes) []).i from h0) h4
  exact ⟨_, w1, feedBLE_init samples, h0, h4, by show ((leftover samples).length : Int) + 1 ≤ 5; omega, hw1⟩

/-- The claim C6 at the state with index 4 and at the samples `1.0 .. 6.0`. -/
theorem fill_index_invariant_witness :
    (∃ w1, updateBLE { data := fun _ => f6, i := 4, ble := [], serial := [] } f1 = some w1 ∧
      0 ≤ w1.i ∧ w1.i ≤ 4) ∧
    (∃ w w1, feedBLE World.init [f1, f2, f3, f4, f5, f6] = some w ∧
      0 ≤ w.i ∧ w.i ≤ 4 ∧ w.i + 1 ≤ 5 ∧ updateBLE w f1 = some w1) :=
  ⟨fill_index_invariant.2.1 { data := fun _ => f6, i := 4, ble := [], serial := [] } f1
      (by decide) (by decide),
    fill_index_invariant.2.2 [f1, f2, f3, f4, f5, f6] f1⟩

/-- C8: for every sample sequence fed from the initial state, `updateBLE` and
the variant that on flush only resets `i` and omits the `memset` both
succeed, make the same sequence of `writeValue` calls with the same
payloads, and end with the same fill index. -/
theorem memset_not_observable (samples : List Nat) :
    ∃ w v, feedBLE World.init samples = some w ∧
      feedBLENoClear World.init samples = some v ∧ w.ble = v.ble ∧ w.i = v.i := by
  have h0 : Sim World.init World.init :=
    ⟨rfl, rfl, Int.le_refl 0, by show (0 : Int) ≤ 4; decide, fun _ _ => rfl⟩
  obtain ⟨w, v, hw, hv, hi, hble, _⟩ := sim_feed samples World.init World.init h0
  exact ⟨w, v, hw, hv, hble, hi⟩

/-- C9: the sample `0x3F0A0000` (the float `0.5390625`) has the byte `0x0A`
among the first four bytes of the record `readExternalADC` writes for it; for
the one-sample sequence made of it the serial output holds two `0x0A` bytes,
and cutting the output at every `0x0A` gives two chunks, not the one 4-byte
chunk of the sample. -/
theorem serial_framing_ambiguous :
    (∃ s w, s < 2 ^ 32 ∧ readExternalADC World.init s = some w ∧ 10 ∈ w.serial.take 4) ∧
    (∃ samples w, (∀ s ∈ samples, s < 2 ^ 32) ∧ feedADC World.init samples = some w ∧
      samples.length < w.serial.count 10 ∧
      (splitRecords [] w.serial).1.length ≠ samples.length ∧
      (splitRecords [] w.serial).1 ≠ samples.map rawBytes) := by
  refine ⟨⟨0x3F0A0000, _, by decide, rfl, by decide⟩, ⟨[0x3F0A0000], _, ?_, rfl, ?_, ?_, ?_⟩⟩
  · intro s hs
    simp only [List.mem_singleton] at hs
    subst hs
    decide
  · decide
  · decide
  · decide

/-- The loop test of `measureSampleRate` agrees with "fewer than 5000 ms have
elapsed" as long as neither `startTime + 5000` nor the clock wraps. -/
theorem loopTest_no_rollover (startTime t : Nat) (h : startTime + 5000 < 2 ^ 32)
    (h1 : startTime ≤ t) (h2 : t < 2 ^ 32) :
    loopTest startTime t = true ↔ elapsed startTime t < 5000 := by
  simp only [loopTest, endTime, elapsed, decide_eq_true_eq]
  omega

/-- C10, at a failing input: entered at clock value `2 ^ 32 - 1000`, with the
next reading one millisecond later, `endTime` has wrapped to `4000`, the loop
test is false although only 1 ms has elapsed, and `measureSampleRate` ends
with no sample taken. -/
theorem measureSampleRate_rollover :
    endTime 4294966296 = 4000 ∧
    elapsed 4294966296 4294966297 = 1 ∧
    loopTest 4294966296 4294966297 = false ∧
    ∀ (w : World) (adc : List Nat),
      measureSampleRate w [4294966296, 4294966297] adc = some (w, 0) := by
  refine ⟨by decide, by decide, by decide, ?_⟩
  intro w adc
  have h : loopTest 4294966296 4294966297 = false := by decide
  simp [measureSampleRate, sampleLoop, h]

end OpenEarableExG
